import Mathlib

/-!
# Verification of `unwpreg` (wpreg firmware archive extractor)

Shallow embedding of `src/unwpreg.c`: the record decoder (`process_buf`'s
parsing half), the extraction driver (`process_mem`), and the
materialization pipeline (`save_buf`, `mkdir_p_fn`, `_mkdir_p`, `_mkdir`)
over an explicit filesystem-state model.

Bytes are modelled as `Nat` (values 0–255 in practice), buffers as
`List Nat`.  Machine `size_t` arithmetic is modelled as `Nat` with an
explicit `% 2 ^ 64` where the C code can wrap.  Fatal `assert` failures are
modelled by `Option`/`Except` results (`none`/`.error` = process abort).
All recursion is structural (fuel-based where the C loop is not), so every
definition evaluates by `decide`/`rfl`.
-/

set_option maxRecDepth 100000

namespace Unwpreg

/-- ASCII byte list of a string literal (used only to write test vectors
readably). -/
def strBytes (s : String) : List Nat := s.toList.map Char.toNat

/-- `unsigned long` modulus: the C code runs on a platform where
`size_t`/`unsigned long` are 64-bit. -/
def ulongMod : Nat := 2 ^ 64

/-! ## Field layout of `struct fwpart`

`char name[0x74]; char size[0x0C]; unsigned char hash[0x10];
char mode[0x0C]; char time[0x0C]; char rsvd[0x0C]; char path[0x3C];
char vers[0x10]; unsigned char payload[];` — all byte arrays, hence no
padding: `sizeof(struct fwpart)` is the plain sum of the widths. -/

/-- `sizeof(struct fwpart)`: the sum of the fixed field widths. -/
def headerSize : Nat := 0x74 + 0x0C + 0x10 + 0x0C + 0x0C + 0x0C + 0x3C + 0x10

/-- Offset of the `size` field. -/
def sizeOff : Nat := 0x74

/-- Offset of the `hash` field. -/
def hashOff : Nat := 0x74 + 0x0C

/-- Offset of the `mode` field. -/
def modeOff : Nat := 0x74 + 0x0C + 0x10

/-- Offset of the `time` field. -/
def timeOff : Nat := 0x74 + 0x0C + 0x10 + 0x0C

/-- Offset of the `rsvd` field. -/
def rsvdOff : Nat := 0x74 + 0x0C + 0x10 + 0x0C + 0x0C

/-- Offset of the `path` field. -/
def pathOff : Nat := 0x74 + 0x0C + 0x10 + 0x0C + 0x0C + 0x0C

/-- Offset of the `vers` field. -/
def versOff : Nat := 0x74 + 0x0C + 0x10 + 0x0C + 0x0C + 0x0C + 0x3C

/-! ## C string and `strtoul` semantics

The C code reads `name`, `path` and `vers` through plain `char *`
(`printf("%s", …)`, `save_buf(pt->path, …)`), i.e. up to the first NUL
byte, wherever it occurs.  The numeric fields go through
`strtoul(field, NULL, 0)`. -/

/-- Reading a NUL-terminated C string that starts at byte offset `off` of
`buf`: all bytes up to (excluding) the first NUL.  Nothing stops the scan
at a field boundary; it is bounded only by the end of the buffer (reading
past the mapping would fault in C). -/
def cstrAt (buf : List Nat) (off : Nat) : List Nat :=
  (buf.drop off).takeWhile (fun c => c ≠ 0)

/-- C `isspace` for the default locale (space, \t, \n, \v, \f, \r). -/
def isSpace (c : Nat) : Bool := c = 32 ∨ (9 ≤ c ∧ c ≤ 13)

/-- Numeric value of an ASCII digit or letter (as `strtoul` interprets
characters in bases up to 36), `none` for anything else. -/
def digitVal (c : Nat) : Option Nat :=
  if 48 ≤ c ∧ c ≤ 57 then some (c - 48)
  else if 97 ≤ c ∧ c ≤ 122 then some (c - 87)
  else if 65 ≤ c ∧ c ≤ 90 then some (c - 55)
  else none

/-- Accumulate digits of the given base from the front of the list,
stopping at the first character that is not a valid digit of that base.
Returns the mathematically exact (unclamped) value. -/
def takeDigits (base : Nat) : List Nat → Nat → Nat
  | [], acc => acc
  | c :: cs, acc =>
    match digitVal c with
    | some d => if d < base then takeDigits base cs (acc * base + d) else acc
    | none => acc

/-- Whether the list starts with a hexadecimal digit (decides if a `0x`
prefix counts as a base-16 prefix for `strtoul`). -/
def startsHexDigit : List Nat → Bool
  | c :: _ => (digitVal c).any (fun d => decide (d < 16))
  | [] => false

/-- C `strtoul(s, NULL, 0)` on the byte sequence `s`: skip whitespace, an
optional sign; a `0x`/`0X` prefix followed by a hex digit selects base 16,
a leading `0` selects base 8, otherwise base 10; scanning stops at the
first invalid character; the result clamps to `ULONG_MAX` on overflow and
a negated value wraps modulo `2 ^ 64`. -/
def strtoul0 (s : List Nat) : Nat :=
  let s1 := s.dropWhile isSpace
  let sgn : Bool × List Nat :=
    match s1 with
    | 45 :: t => (true, t)
    | 43 :: t => (false, t)
    | _ => (false, s1)
  let m : Nat :=
    match sgn.2 with
    | 48 :: x :: t =>
      if (x = 120 ∨ x = 88) ∧ startsHexDigit t then
        takeDigits 16 t 0
      else
        takeDigits 8 (x :: t) 0
    | s2 => takeDigits 10 s2 0
  if m ≥ ulongMod then ulongMod - 1
  else if sgn.1 then (ulongMod - m) % ulongMod else m

/-! ## Record decoding (`process_buf`, lines 140–169, parsing half) -/

/-- The decoded view of one `struct fwpart` record (field values as the C
code extracts them from the buffer). -/
structure fwpart where
  name : List Nat
  size : Nat
  hash : List Nat
  mode : Nat
  time : Nat
  rsvd : Nat
  path : List Nat
  vers : List Nat
  payload : List Nat
deriving DecidableEq, Repr

/-- The two framing assertions of `process_buf`. -/
inductive DecodeErr where
  | truncatedHeader
  | truncatedPayload
deriving DecidableEq, Repr

/-- The decoding half of `process_buf` applied to the `count` bytes that
remain from the current record's start:

* `assert(count >= sizeof(struct fwpart))` — else `truncatedHeader`;
* `size/mode/time/rsvd = strtoul(pt->field, NULL, 0)` (with `mode`
  narrowed by the assignment to the 32-bit `mode_t`);
* `assert(count >= sizeof(struct fwpart) + size)` — the sum is computed in
  `size_t` arithmetic, hence the explicit `% 2 ^ 64` — else
  `truncatedPayload`;
* on success the record and the value `process_buf` returns,
  `sizeof(struct fwpart) + size` (again `size_t` arithmetic). -/
def decodeRecord (buf : List Nat) : Except DecodeErr (fwpart × Nat) :=
  if buf.length < headerSize then .error .truncatedHeader
  else
    let size := strtoul0 (buf.drop sizeOff)
    let total := (headerSize + size) % ulongMod
    if buf.length < total then .error .truncatedPayload
    else
      .ok ({ name := cstrAt buf 0
             size := size
             hash := (buf.drop hashOff).take 0x10
             mode := strtoul0 (buf.drop modeOff) % 2 ^ 32
             time := strtoul0 (buf.drop timeOff)
             rsvd := strtoul0 (buf.drop rsvdOff)
             path := cstrAt buf pathOff
             vers := cstrAt buf versOff
             payload := (buf.drop headerSize).take size }, total)

/-! ## Filesystem model

The destination filesystem is a flat finite map from absolute paths
(lists of `/`-free name components) to entries, together with the
process's current working directory.  All relative paths of the C code
resolve against the working directory.  `none` results model the
process-killing `assert` failures of the source. -/

/-- A path component (byte list, never containing `/` once split). -/
abbrev Name := List Nat

/-- An absolute filesystem path, as a list of components. -/
abbrev AbsPath := List Name

/-- A filesystem entry: a regular file (content bytes, permission bits,
access and modification times) or a directory. -/
inductive Entry where
  | file (content : List Nat) (mode : Nat) (atime : Nat) (mtime : Nat)
  | dir
deriving DecidableEq, Repr

/-- The filesystem: an association list from absolute paths to entries. -/
structure Fs where
  entries : List (AbsPath × Entry)
deriving DecidableEq, Repr

/-- `stat`: the entry at path `p`, if any. -/
def Fs.lookup (fs : Fs) (p : AbsPath) : Option Entry :=
  (fs.entries.find? (fun e => decide (e.1 = p))).map (fun e => e.2)

/-- Bind path `p` to entry `e`, replacing any previous binding. -/
def Fs.setEntry (fs : Fs) (p : AbsPath) (e : Entry) : Fs :=
  ⟨(p, e) :: fs.entries.filter (fun x => decide (x.1 ≠ p))⟩

/-- `chmod(path, mode)`: set a file's permission bits.  The C code never
checks the return value, so a failed `chmod` (no such file) leaves the
filesystem unchanged rather than aborting. -/
def Fs.chmod (fs : Fs) (p : AbsPath) (m : Nat) : Fs :=
  match fs.lookup p with
  | some (.file c _ a t) => fs.setEntry p (.file c m a t)
  | _ => fs

/-- `utime(path, &times)` with `actime = modtime = t`: set a file's access
and modification times.  Return value unchecked in C, as for `chmod`. -/
def Fs.utime (fs : Fs) (p : AbsPath) (t : Nat) : Fs :=
  match fs.lookup p with
  | some (.file c m _ _) => fs.setEntry p (.file c m t t)
  | _ => fs

/-- Process state: the filesystem and the current working directory. -/
structure St where
  fs : Fs
  cwd : AbsPath
deriving DecidableEq, Repr

/-- Outcomes of the fallible OS calls whose success the source does *not*
control: whether `mkdir(2)` calls succeed, whether `fopen(path, "w")`
succeeds, and how many payload bytes the single `fwrite` call actually
writes (a short write in C reports fewer items written). -/
structure Oracle where
  mkdirOk : Bool
  openOk : Bool
  written : Nat
deriving DecidableEq, Repr

/-- The all-successful oracle: every syscall succeeds and the write is
complete (`written` is clamped to the content length at use sites). -/
def okOracle : Oracle := ⟨true, true, ulongMod⟩

/-! ## Directory creation (`_mkdir`, `_mkdir_p`, `mkdir_p_fn`) -/

/-- `_mkdir` (lines 63–79): asserts the component is nonempty, does not
start with `/`, and is neither `.` nor `..`; then `stat`s it relative to
the working directory.  Absent → `mkdir` (whose failure is fatal:
`assert(ret == 0)`); present → fatal unless it is a directory
(`assert(S_ISDIR(st.st_mode))`).  The `mode` argument is passed to
`mkdir` (directory modes are not tracked by the model). -/
def _mkdir (st : St) (name : Name) (mode : Nat) (orc : Oracle) : Option St :=
  if name = [] then none
  else if name.head? = some 47 then none
  else if name = [46] then none
  else if name = [46, 46] then none
  else
    match st.fs.lookup (st.cwd ++ [name]) with
    | none =>
      if orc.mkdirOk then
        some { st with fs := st.fs.setEntry (st.cwd ++ [name]) .dir }
      else none
    | some .dir => some st
    | some (.file _ _ _ _) => none

/-- The splitting step of `_mkdir_p` (lines 85–87): `strchr(path, '/')`
followed by zeroing the run of slashes.  Returns the first component and,
when a slash was found, the remainder after the slash run (`none` when the
path had no slash at all). -/
def splitSlash : Name → Name × Option Name
  | [] => ([], none)
  | c :: cs =>
    if c = 47 then ([], some (cs.dropWhile (fun d => d = 47)))
    else
      let r := splitSlash cs
      (c :: r.1, r.2)

theorem splitSlash_rest_length (p : Name) : ∀ (c r : Name),
    splitSlash p = (c, some r) → r.length < p.length := by
  induction p with
  | nil => intro c r h; simp [splitSlash] at h
  | cons a as ih =>
    intro c r h
    rw [splitSlash] at h
    by_cases ha : a = 47
    · rw [if_pos ha] at h
      have hr : some (as.dropWhile (fun d => decide (d = 47))) = some r :=
        congrArg Prod.snd h
      have hr2 : as.dropWhile (fun d => decide (d = 47)) = r :=
        Option.some.inj hr
      have h2 := (List.dropWhile_sublist (l := as) (fun d => decide (d = 47))).length_le
      rw [hr2] at h2
      simp only [List.length_cons]
      omega
    · rw [if_neg ha] at h
      have hsnd : (splitSlash as).2 = some r := congrArg Prod.snd h
      have hlt := ih (splitSlash as).1 r (by rw [← hsnd])
      simp only [List.length_cons]
      omega

/-- `_mkdir_p` (lines 81–99), fuel-indexed so that the recursion is
structural (the C recursion descends on the strictly shorter remainder
after the first slash run, see `splitSlash_rest_length`; the wrapper
`_mkdir_p` supplies sufficient fuel).  One step: split off the first
component, `_mkdir` it; if a slash was present, save the working
directory (`open(".")`), `chdir` into the component, recurse on the
remainder, and restore the saved directory (`fchdir(fd)`).  A fatal
assert anywhere aborts (the process dies before any restore). -/
def mkdirpF : Nat → St → Name → Nat → Oracle → Option St
  | 0, _, _, _, _ => none
  | fuel + 1, st, p, mode, orc =>
    match splitSlash p with
    | (comp, none) => _mkdir st comp mode orc
    | (comp, some rest) =>
      (_mkdir st comp mode orc).bind fun st1 =>
        (mkdirpF fuel { st1 with cwd := st1.cwd ++ [comp] } rest mode orc).map
          fun st2 => { st2 with cwd := st1.cwd }

/-- `_mkdir_p(path, mode)`: the fuel wrapper.  `p.length + 1` steps always
suffice because each recursive call strictly shortens the path. -/
def _mkdir_p (st : St) (p : Name) (mode : Nat) (orc : Oracle) : Option St :=
  mkdirpF (p.length + 1) st p mode orc

/-- POSIX `dirname(3)` (the libc routine `mkdir_p_fn` calls on a writable
copy of the path): strip trailing slashes, drop the last component, strip
the slashes before it; a path without remaining slash gives `"."`, and an
all-slash or slash-rooted remainder gives `"/"`. -/
def dirname (p : Name) : Name :=
  let r := p.reverse.dropWhile (fun c => c = 47)
  if r = [] then (if p = [] then [46] else [47])
  else
    let r2 := r.dropWhile (fun c => c ≠ 47)
    let r3 := r2.dropWhile (fun c => c = 47)
    if r2 = [] then [46]
    else if r3 = [] then [47]
    else r3.reverse

/-- `mkdir_p_fn` (lines 101–115): duplicate the path (the `malloc` is
asserted and modelled as always succeeding) and run `_mkdir_p` on its
`dirname`. -/
def mkdir_p_fn (st : St) (p : Name) (mode : Nat) (orc : Oracle) : Option St :=
  _mkdir_p st (dirname p) mode orc

/-- Splitting a relative path into its `/`-separated components for
resolution against the working directory (runs of slashes collapse, as in
POSIX path resolution), fuel-indexed like `mkdirpF`. -/
def splitCompF : Nat → Name → List Name
  | 0, _ => []
  | fuel + 1, p =>
    match splitSlash p with
    | (comp, none) => [comp]
    | (comp, some rest) => comp :: splitCompF fuel rest

/-- All components of a relative path. -/
def splitComponents (p : Name) : List Name :=
  splitCompF (p.length + 1) p

/-! ## File materialization (`save_buf`, lines 117–138) -/

/-- `save_buf(path, buf, size, mode, time)` with explicit syscall
outcomes:

* strip every leading `/` from the declared path (lines 121–122);
* `mkdir_p_fn(path, 0777)` — fatal on failure;
* `fopen(path, "w")` — `assert(f != NULL)`: fatal when the oracle denies
  the open or when the target already exists as a directory;
* `fwrite(buf, size, 1, f)` — the return value is *ignored* by the
  source, so the oracle's `written` (clamped to the content length)
  decides how many bytes land in the file and a short write is silent;
* `fclose`, then `chmod(path, mode)` and `utime(path, &times)` with both
  timestamps equal to `time` — return values again unchecked. -/
def save_buf (st : St) (path : Name) (buf : List Nat) (mode : Nat)
    (time : Nat) (orc : Oracle) : Option St :=
  let p := path.dropWhile (fun c => c = 47)
  (mkdir_p_fn st p 0o777 orc).bind fun st1 =>
    if orc.openOk then
      let target := st1.cwd ++ splitComponents p
      if st1.fs.lookup target = some .dir then none
      else
        let written := min orc.written buf.length
        some { st1 with fs :=
          ((st1.fs.setEntry target (.file (buf.take written) 0o666 0 0)).chmod
            target mode).utime target time }
    else none

/-! ## The extraction driver (`process_buf`, `process_mem`) -/

/-- `process_buf` (lines 140–169): decode the record at the start of the
remaining buffer (fatal on a framing assert), materialize it with
`save_buf`, and return the new state together with the number of bytes to
advance, `sizeof(struct fwpart) + size` in `size_t` arithmetic. -/
def process_buf (st : St) (buf : List Nat) (orc : Oracle) :
    Option (St × Nat) :=
  match decodeRecord buf with
  | .error _ => none
  | .ok (pt, total) =>
    match save_buf st pt.path pt.payload pt.mode pt.time orc with
    | none => none
    | some st' => some (st', total)

/-- `process_mem` (lines 171–180), fuel-indexed: while bytes remain,
process one record and advance by the returned length.  A record whose
returned length is `0` (possible only through `size_t` wraparound) makes
the C loop spin forever; the model's fuel then runs out, yielding `none`.
The final `assert(size == 0)` is vacuous: the loop only exits at `0`. -/
def processMemF : Nat → St → List Nat → Oracle → Option St
  | 0, _, _, _ => none
  | fuel + 1, st, buf, orc =>
    if buf.length = 0 then some st
    else
      match process_buf st buf orc with
      | none => none
      | some (st', len) => processMemF fuel st' (buf.drop len) orc

/-- `process_mem(mem, size)`: fuel wrapper (each non-degenerate step
strictly consumes input, so `buf.length + 1` steps suffice). -/
def process_mem (st : St) (buf : List Nat) (orc : Oracle) : Option St :=
  processMemF (buf.length + 1) st buf orc

/-! ## Decode-level framing (claim C1)

The driver's offset bookkeeping in isolation: the sequence of
`totalLength` values the decoder hands to `process_mem`, independent of
filesystem effects. -/

/-- The list of record lengths obtained by iterating `decodeRecord` from
offset 0, advancing by each returned `totalLength` (fuel-indexed). -/
def recordLengthsF : Nat → List Nat → Option (List Nat)
  | 0, _ => none
  | fuel + 1, buf =>
    if buf.length = 0 then some []
    else
      match decodeRecord buf with
      | .error _ => none
      | .ok (_, len) => (recordLengthsF fuel (buf.drop len)).map (fun ls => len :: ls)

/-- All decoded record lengths of an archive buffer. -/
def recordLengths (buf : List Nat) : Option (List Nat) :=
  recordLengthsF (buf.length + 1) buf

/-- Well-formedness of an archive as claim C1 states it: records sit
back-to-back from offset 0 and every record's declared `size` fits in the
bytes remaining from that record's start (checked in exact, non-wrapping
arithmetic). -/
def wfArchiveF : Nat → List Nat → Bool
  | 0, _ => false
  | fuel + 1, buf =>
    if buf.length = 0 then true
    else
      let size := strtoul0 (buf.drop sizeOff)
      decide (headerSize ≤ buf.length) &&
        decide (headerSize + size ≤ buf.length) &&
        wfArchiveF fuel (buf.drop (headerSize + size))

/-- Well-formedness of an archive buffer. -/
def wfArchive (buf : List Nat) : Bool :=
  wfArchiveF (buf.length + 1) buf

instance {ε α : Type} [DecidableEq ε] [DecidableEq α] :
    DecidableEq (Except ε α) := fun x y =>
  match x, y with
  | .ok a, .ok b =>
    if h : a = b then isTrue (by rw [h])
    else isFalse (by intro hc; cases hc; exact h rfl)
  | .error e, .error f =>
    if h : e = f then isTrue (by rw [h])
    else isFalse (by intro hc; cases hc; exact h rfl)
  | .ok _, .error _ => isFalse (by intro hc; cases hc)
  | .error _, .ok _ => isFalse (by intro hc; cases hc)

/-! ## Concrete test vectors -/

/-- Pad a field's bytes with NULs to the field width. -/
def padTo (n : Nat) (l : List Nat) : List Nat :=
  l ++ List.replicate (n - l.length) 0

/-- Assemble a 256-byte record header from its field contents. -/
def mkHeader (name size : String) (hash : List Nat)
    (mode time rsvd path vers : String) : List Nat :=
  padTo 0x74 (strBytes name) ++ padTo 0x0C (strBytes size) ++
  padTo 0x10 hash ++ padTo 0x0C (strBytes mode) ++
  padTo 0x0C (strBytes time) ++ padTo 0x0C (strBytes rsvd) ++
  padTo 0x3C (strBytes path) ++ padTo 0x10 (strBytes vers)

/-- Empty filesystem, working directory at the extraction root. -/
def stEmpty : St := ⟨⟨[]⟩, []⟩

/-- A one-record archive: 2-byte payload `[10, 20]`, path `d/f`,
mode `0755`, time `99`. -/
def demoBuf : List Nat :=
  mkHeader "n" "2" [] "0755" "99" "0" "d/f" "v1" ++ [10, 20]

/-- The decoded record of `demoBuf`. -/
def demoRec : fwpart :=
  ⟨strBytes "n", 2, List.replicate 16 0, 493, 99, 0,
   strBytes "d/f", strBytes "v1", [10, 20]⟩

/-- The state after extracting `demoBuf` into `stEmpty`. -/
def demoSt : St :=
  ⟨⟨[([strBytes "d", strBytes "f"], .file [10, 20] 493 99 99),
     ([strBytes "d"], .dir)]⟩, []⟩

/-- A 256-byte record whose `size` field holds twelve `9` digits with no
terminating NUL, directly followed by eight more `9` bytes in the `hash`
field: `strtoul` scans all twenty digits, overflows `unsigned long`, and
returns `ULONG_MAX`. -/
def ovBuf : List Nat :=
  mkHeader "" "999999999999" (strBytes "99999999") "" "" "" "" ""

/-- The record the code decodes from `ovBuf`. -/
def ovRec : fwpart :=
  ⟨[], 2 ^ 64 - 1, strBytes "99999999" ++ List.replicate 8 0,
   0, 0, 0, [], [], []⟩

/-- A 256-byte record whose `path` field is sixty `a` bytes with no NUL,
followed by a `vers` field beginning `V` (byte 86). -/
def ovPathBuf : List Nat :=
  padTo 0x74 [] ++ padTo 0x0C (strBytes "0") ++ List.replicate 0x10 0 ++
  padTo 0x0C [] ++ padTo 0x0C [] ++ padTo 0x0C [] ++
  List.replicate 0x3C 97 ++ padTo 0x10 (strBytes "V")

/-- The record the code decodes from `ovPathBuf`: its `path` runs past
the 0x3C-byte field into the `vers` field's first byte. -/
def ovPathRec : fwpart :=
  ⟨[], 0, List.replicate 16 0, 0, 0, 0,
   List.replicate 0x3C 97 ++ [86], strBytes "V", []⟩

/-! ## Helper lemmas -/

theorem strtoul0_lt (s : List Nat) : strtoul0 s < ulongMod := by
  have hpos : 0 < ulongMod := by decide
  simp only [strtoul0]
  split
  · omega
  · split
    · exact Nat.mod_lt _ hpos
    · omega

theorem decodeRecord_ok {buf : List Nat} {r : fwpart} {L : Nat}
    (h : decodeRecord buf = .ok (r, L)) :
    headerSize ≤ buf.length ∧
    r.size = strtoul0 (buf.drop sizeOff) ∧
    r.mode = strtoul0 (buf.drop modeOff) % 2 ^ 32 ∧
    r.time = strtoul0 (buf.drop timeOff) ∧
    r.rsvd = strtoul0 (buf.drop rsvdOff) ∧
    r.name = cstrAt buf 0 ∧
    r.path = cstrAt buf pathOff ∧
    r.vers = cstrAt buf versOff ∧
    r.payload = (buf.drop headerSize).take r.size ∧
    L = (headerSize + r.size) % ulongMod ∧
    L ≤ buf.length := by
  simp only [decodeRecord] at h
  split at h
  · exact Except.noConfusion h
  · split at h
    · exact Except.noConfusion h
    · rename_i h1 h2
      cases h
      refine ⟨by omega, rfl, rfl, rfl, rfl, rfl, rfl, rfl, rfl, rfl, by omega⟩

theorem _mkdir_cwd {st st' : St} {name : Name} {m : Nat} {orc : Oracle}
    (h : _mkdir st name m orc = some st') : st'.cwd = st.cwd := by
  unfold _mkdir at h
  split at h
  · exact Option.noConfusion h
  split at h
  · exact Option.noConfusion h
  split at h
  · exact Option.noConfusion h
  split at h
  · exact Option.noConfusion h
  split at h
  · split at h
    · cases h; rfl
    · exact Option.noConfusion h
  · cases h; rfl
  · exact Option.noConfusion h

theorem mkdirpF_cwd : ∀ (fuel : Nat) (st : St) (p : Name) (m : Nat)
    (orc : Oracle) (st' : St),
    mkdirpF fuel st p m orc = some st' → st'.cwd = st.cwd := by
  intro fuel
  induction fuel with
  | zero => intro st p m orc st' h; exact Option.noConfusion h
  | succ n ih =>
    intro st p m orc st' h
    rw [mkdirpF] at h
    split at h
    · exact _mkdir_cwd h
    · rw [Option.bind_eq_some] at h
      obtain ⟨st1, heq1, h⟩ := h
      rw [Option.map_eq_some'] at h
      obtain ⟨st2, heq2, h⟩ := h
      cases h
      show st1.cwd = st.cwd
      exact _mkdir_cwd heq1

theorem mkdir_p_fn_cwd {st st' : St} {p : Name} {m : Nat} {orc : Oracle}
    (h : mkdir_p_fn st p m orc = some st') : st'.cwd = st.cwd :=
  mkdirpF_cwd _ st (dirname p) m orc st' h

theorem lookup_setEntry_self (fs : Fs) (p : AbsPath) (e : Entry) :
    (fs.setEntry p e).lookup p = some e := by
  simp [Fs.lookup, Fs.setEntry, List.find?]

theorem write_chmod_utime_lookup (fs : Fs) (p : AbsPath) (c : List Nat)
    (m t : Nat) :
    (((fs.setEntry p (.file c 0o666 0 0)).chmod p m).utime p t).lookup p
      = some (.file c m t t) := by
  simp [Fs.chmod, Fs.utime, lookup_setEntry_self]

theorem save_buf_some {st st' : St} {path c : List Nat} {m t : Nat}
    {orc : Oracle} (h : save_buf st path c m t orc = some st') :
    st'.fs.lookup
        (st.cwd ++ splitComponents (path.dropWhile (fun x => x = 47)))
      = some (.file (c.take (min orc.written c.length)) m t t)
    ∧ st'.cwd = st.cwd := by
  simp only [save_buf] at h
  rw [Option.bind_eq_some] at h
  obtain ⟨st1, hmk, h⟩ := h
  have hcwd : st1.cwd = st.cwd := mkdir_p_fn_cwd hmk
  split at h
  · split at h
    · exact Option.noConfusion h
    · cases h
      refine ⟨?_, hcwd⟩
      rw [← hcwd]
      exact write_chmod_utime_lookup st1.fs _ _ m t
  · exact Option.noConfusion h

theorem takeWhile_append_pos {α : Type} (p : α → Bool) :
    ∀ (A B : List α), (∀ a ∈ A, p a = true) →
      (A ++ B).takeWhile p = A ++ B.takeWhile p := by
  intro A
  induction A with
  | nil => intro B h; simp
  | cons x xs ih =>
    intro B h
    have hx : p x = true := h x (List.mem_cons_self x xs)
    simp only [List.cons_append, List.takeWhile_cons, hx, if_true]
    rw [ih B (fun a ha => h a (List.mem_cons_of_mem x ha))]

theorem takeWhile_append_neg {α : Type} (p : α → Bool) :
    ∀ (A B : List α), (∃ a ∈ A, p a = false) →
      (A ++ B).takeWhile p = A.takeWhile p := by
  intro A
  induction A with
  | nil => intro B h; obtain ⟨a, ha, _⟩ := h; exact absurd ha (List.not_mem_nil a)
  | cons x xs ih =>
    intro B h
    by_cases hx : p x = true
    · simp only [List.cons_append, List.takeWhile_cons, hx, if_true]
      have : ∃ a ∈ xs, p a = false := by
        obtain ⟨a, ha, hpa⟩ := h
        rcases List.mem_cons.mp ha with rfl | hmem
        · rw [hx] at hpa; exact Bool.noConfusion hpa
        · exact ⟨a, hmem, hpa⟩
      rw [ih B this]
    · have hx' : p x = false := Bool.eq_false_iff.mpr hx
      simp only [List.cons_append, List.takeWhile_cons, hx', Bool.false_eq_true,
        if_false]

theorem takeWhile_length_lt {α : Type} (p : α → Bool) :
    ∀ (A : List α), (∃ a ∈ A, p a = false) →
      (A.takeWhile p).length < A.length := by
  intro A
  induction A with
  | nil => intro h; obtain ⟨a, ha, _⟩ := h; exact absurd ha (List.not_mem_nil a)
  | cons x xs ih =>
    intro h
    by_cases hx : p x = true
    · have : ∃ a ∈ xs, p a = false := by
        obtain ⟨a, ha, hpa⟩ := h
        rcases List.mem_cons.mp ha with rfl | hmem
        · rw [hx] at hpa; exact Bool.noConfusion hpa
        · exact ⟨a, hmem, hpa⟩
      simp only [List.takeWhile_cons, hx, if_true, List.length_cons]
      exact Nat.succ_lt_succ (ih this)
    · have hx' : p x = false := Bool.eq_false_iff.mpr hx
      simp only [List.takeWhile_cons, hx', Bool.false_eq_true, if_false,
        List.length_nil, List.length_cons]
      exact Nat.succ_pos _

theorem dropWhile_of_forall_neg {α : Type} (p : α → Bool) :
    ∀ (l : List α), (∀ a ∈ l, p a = false) → l.dropWhile p = l := by
  intro l
  induction l with
  | nil => intro _; rfl
  | cons x xs _ =>
    intro h
    have hx : p x = false := h x (List.mem_cons_self x xs)
    simp only [List.dropWhile_cons, hx, Bool.false_eq_true, if_false]

theorem dropWhile_of_forall_pos {α : Type} (p : α → Bool) :
    ∀ (l : List α), (∀ a ∈ l, p a = true) → l.dropWhile p = [] := by
  intro l
  induction l with
  | nil => intro _; rfl
  | cons x xs ih =>
    intro h
    have hx : p x = true := h x (List.mem_cons_self x xs)
    simp only [List.dropWhile_cons, hx, if_true]
    exact ih (fun a ha => h a (List.mem_cons_of_mem x ha))

theorem dirname_no_slash (q : Name) (h : 47 ∉ q) : dirname q = [46] := by
  by_cases hq : q = []
  · subst hq; rfl
  · have h1 : q.reverse.dropWhile (fun c => decide (c = 47)) = q.reverse := by
      refine dropWhile_of_forall_neg _ q.reverse (fun a ha => ?_)
      have : a ∈ q := List.mem_reverse.mp ha
      simp only [decide_eq_false_iff_not]
      intro hc
      exact h (hc ▸ this)
    have h2 : q.reverse.dropWhile (fun c => decide (¬c = 47)) = [] := by
      refine dropWhile_of_forall_pos _ q.reverse (fun a ha => ?_)
      have : a ∈ q := List.mem_reverse.mp ha
      simp only [decide_eq_true_eq]
      intro hc
      exact h (hc ▸ this)
    have hrev : q.reverse ≠ [] := by
      intro hc
      exact hq (List.reverse_eq_nil_iff.mp hc)
    simp only [dirname, h1, h2, if_neg hrev]
    simp

theorem _mkdir_oracle (st : St) (name : Name) (m : Nat) (o1 o2 : Oracle)
    (h : o1.mkdirOk = o2.mkdirOk) :
    _mkdir st name m o1 = _mkdir st name m o2 := by
  unfold _mkdir
  rw [h]

theorem mkdirpF_oracle : ∀ (fuel : Nat) (st : St) (p : Name) (m : Nat)
    (o1 o2 : Oracle), o1.mkdirOk = o2.mkdirOk →
    mkdirpF fuel st p m o1 = mkdirpF fuel st p m o2 := by
  intro fuel
  induction fuel with
  | zero => intro st p m o1 o2 _; rfl
  | succ n ih =>
    intro st p m o1 o2 h
    rw [mkdirpF, mkdirpF]
    cases hsp : splitSlash p with
    | mk comp o =>
      cases o with
      | none => exact _mkdir_oracle st comp m o1 o2 h
      | some rest =>
        show ((_mkdir st comp m o1).bind fun st1 =>
              (mkdirpF n { st1 with cwd := st1.cwd ++ [comp] } rest m o1).map
                fun st2 => { st2 with cwd := st1.cwd })
          = ((_mkdir st comp m o2).bind fun st1 =>
              (mkdirpF n { st1 with cwd := st1.cwd ++ [comp] } rest m o2).map
                fun st2 => { st2 with cwd := st1.cwd })
        rw [_mkdir_oracle st comp m o1 o2 h]
        cases _mkdir st comp m o2 with
        | none => rfl
        | some st1 =>
          exact congrArg
            (Option.map fun st2 => { st2 with cwd := st1.cwd })
            (ih { st1 with cwd := st1.cwd ++ [comp] } rest m o1 o2 h)

theorem mkdir_p_fn_oracle (st : St) (p : Name) (m : Nat) (o1 o2 : Oracle)
    (h : o1.mkdirOk = o2.mkdirOk) :
    mkdir_p_fn st p m o1 = mkdir_p_fn st p m o2 :=
  mkdirpF_oracle _ st (dirname p) m o1 o2 h

theorem decodeRecord_isOk {buf : List Nat}
    (h1 : headerSize ≤ buf.length)
    (h2 : (headerSize + strtoul0 (buf.drop sizeOff)) % ulongMod ≤ buf.length) :
    ∃ r, decodeRecord buf
        = .ok (r, (headerSize + strtoul0 (buf.drop sizeOff)) % ulongMod) := by
  simp only [decodeRecord]
  rw [if_neg (Nat.not_lt.mpr h1), if_neg (Nat.not_lt.mpr h2)]
  exact ⟨_, rfl⟩

theorem recordLengthsF_succ_ok {n : Nat} {buf : List Nat} {r : fwpart}
    {L : Nat} (hb : ¬buf.length = 0) (hdec : decodeRecord buf = .ok (r, L)) :
    recordLengthsF (n + 1) buf
      = (recordLengthsF n (buf.drop L)).map (fun ls => L :: ls) := by
  rw [recordLengthsF, if_neg hb, hdec]

theorem framing_core : ∀ (fuel : Nat) (buf : List Nat),
    buf.length < fuel → buf.length < ulongMod → wfArchiveF fuel buf = true →
    ∃ Ls, recordLengthsF fuel buf = some Ls ∧ Ls.sum = buf.length := by
  intro fuel
  induction fuel with
  | zero => intro buf hf; omega
  | succ n ih =>
    intro buf hf hu hwf
    by_cases hb : buf.length = 0
    · exact ⟨[], by rw [recordLengthsF, if_pos hb], by simp [hb]⟩
    · simp only [wfArchiveF, if_neg hb, Bool.and_eq_true, decide_eq_true_eq]
        at hwf
      obtain ⟨⟨h1, h2⟩, h3⟩ := hwf
      have hmod : (headerSize + strtoul0 (buf.drop sizeOff)) % ulongMod
          = headerSize + strtoul0 (buf.drop sizeOff) :=
        Nat.mod_eq_of_lt (by omega)
      obtain ⟨r, hdec⟩ := decodeRecord_isOk h1 (by omega)
      rw [hmod] at hdec
      have hlen : (buf.drop (headerSize + strtoul0 (buf.drop sizeOff))).length
          = buf.length - (headerSize + strtoul0 (buf.drop sizeOff)) :=
        List.length_drop _ _
      have hhs : 0 < headerSize := by decide
      obtain ⟨Ls', hrec, hsum⟩ :=
        ih (buf.drop (headerSize + strtoul0 (buf.drop sizeOff)))
          (by omega) (by omega) h3
      refine ⟨(headerSize + strtoul0 (buf.drop sizeOff)) :: Ls', ?_, ?_⟩
      · rw [recordLengthsF_succ_ok hb hdec, hrec]
        rfl
      · simp only [List.sum_cons]
        omega

theorem process_buf_some {st st' : St} {buf : List Nat} {orc : Oracle}
    {len : Nat} (h : process_buf st buf orc = some (st', len)) :
    ∃ r, decodeRecord buf = .ok (r, len) ∧
      save_buf st r.path r.payload r.mode r.time orc = some st' := by
  unfold process_buf at h
  split at h
  · exact Option.noConfusion h
  · rename_i pt total hdec
    split at h
    · exact Option.noConfusion h
    · rename_i st2 hsave
      cases h
      exact ⟨pt, hdec, hsave⟩

theorem procmem_frames : ∀ (fuel : Nat) (st : St) (buf : List Nat)
    (orc : Oracle) (st' : St),
    processMemF fuel st buf orc = some st' →
    ∃ Ls, recordLengthsF fuel buf = some Ls ∧ Ls.sum = buf.length := by
  intro fuel
  induction fuel with
  | zero => intro st buf orc st' h; exact Option.noConfusion h
  | succ n ih =>
    intro st buf orc st' h
    rw [processMemF] at h
    by_cases hb : buf.length = 0
    · exact ⟨[], by rw [recordLengthsF, if_pos hb], by simp [hb]⟩
    · rw [if_neg hb] at h
      split at h
      · exact Option.noConfusion h
      · rename_i st1 len hpb
        obtain ⟨r, hdec, _⟩ := process_buf_some hpb
        obtain ⟨Ls', hrec, hsum⟩ := ih st1 (buf.drop len) orc st' h
        have hle : len ≤ buf.length :=
          (decodeRecord_ok hdec).2.2.2.2.2.2.2.2.2.2
        refine ⟨len :: Ls', ?_, ?_⟩
        · rw [recordLengthsF_succ_ok hb hdec, hrec]
          rfl
        · simp only [List.sum_cons]
          rw [hsum, List.length_drop]
          omega

theorem save_buf_cons_slash (st : St) (q c : List Nat) (m t : Nat)
    (orc : Oracle) :
    save_buf st (47 :: q) c m t orc = save_buf st q c m t orc := by
  unfold save_buf
  rw [List.dropWhile_cons_of_pos (by decide)]

/-- Filesystem with a regular file at `a`. -/
def stWithFile : St := ⟨⟨[([strBytes "a"], .file [1] 420 5 5)]⟩, []⟩

/-- Filesystem with a directory at `a`. -/
def stWithDir : St := ⟨⟨[([strBytes "a"], .dir)]⟩, []⟩

/-! ## The claims -/

/-- C1: for an archive whose records are well-formed (back-to-back from
offset 0, each record's declared `size` fitting the bytes remaining from
its start), the driver's iteration consumes each record as exactly
`headerSize + size` bytes (`headerSize = 256`, the sum of the field
widths) and the decoded lengths sum exactly to the buffer length, i.e.
decoding stops with zero bytes remaining; moreover every complete
successful `process_mem` run exhibits the same exact framing.  The bound
`buf.length < 2 ^ 64` reflects `count : size_t`. -/
theorem framing_exact (buf : List Nat) :
    (buf.length < ulongMod → wfArchive buf = true →
      ∃ Ls, recordLengths buf = some Ls ∧ Ls.sum = buf.length)
    ∧ (∀ (st st' : St) (orc : Oracle), process_mem st buf orc = some st' →
      ∃ Ls, recordLengths buf = some Ls ∧ Ls.sum = buf.length)
    ∧ headerSize = 256 :=
  ⟨fun hu hwf =>
      framing_core (buf.length + 1) buf (Nat.lt_succ_self _) hu hwf,
   fun _ st' orc h => procmem_frames (buf.length + 1) _ buf orc st' h,
   rfl⟩

theorem framing_exact_witness :
    ∃ Ls, recordLengths demoBuf = some Ls ∧ Ls.sum = demoBuf.length :=
  (framing_exact demoBuf).1 (by decide) (by decide)

/-- C2 (code bug): the payload-truncation check
`assert(count >= sizeof(struct fwpart) + size)` adds in wrapping `size_t`
arithmetic.  On the 256-byte record `ovBuf`, whose `size` field scans as
twenty `9` digits (overflowing `strtoul` to `ULONG_MAX`), the claimed
failure condition holds — `headerSize + size` vastly exceeds the 256
remaining bytes — yet the decode *succeeds*, with wrapped record length
`(256 + (2^64 - 1)) mod 2^64 = 255`. -/
theorem decode_overflow_accepts :
    decodeRecord ovBuf = .ok (ovRec, 255)
    ∧ ovBuf.length < headerSize + strtoul0 (ovBuf.drop sizeOff) := by
  decide

/-- C3: `save_buf` strips every leading `/` from the declared path before
any filesystem operation — prepending any number of `/` characters never
changes the outcome — and a record declaring path `/etc/passwd` is
extracted at `etc/passwd` relative to the extraction root. -/
theorem path_normalization :
    (∀ (st : St) (p c : List Nat) (m t : Nat) (orc : Oracle) (k : Nat),
      save_buf st (List.replicate k 47 ++ p) c m t orc
        = save_buf st p c m t orc)
    ∧ (save_buf stEmpty (strBytes "/etc/passwd") [1, 2, 3] 493 1000
        okOracle).map
          (fun s => s.fs.lookup [strBytes "etc", strBytes "passwd"])
      = some (some (.file [1, 2, 3] 493 1000 1000)) := by
  constructor
  · intro st p c m t orc k
    induction k with
    | zero => rfl
    | succ n ih =>
      rw [List.replicate_succ, List.cons_append, save_buf_cons_slash, ih]
  · decide

/-- C4: during directory creation, a component that already exists as a
non-directory is fatal (`assert(S_ISDIR)` aborts, so no continuation
state exists and the entry is never replaced), while a component that
exists as a directory is accepted with the state returned unchanged (not
re-created). -/
theorem mkdir_conflict_semantics :
    (∀ (st : St) (name : Name) (m : Nat) (orc : Oracle) (c : List Nat)
        (fm fa ft : Nat),
      st.fs.lookup (st.cwd ++ [name]) = some (.file c fm fa ft) →
      _mkdir st name m orc = none)
    ∧ (∀ (st : St) (name : Name) (m : Nat) (orc : Oracle),
      name ≠ [] → name.head? ≠ some 47 → name ≠ [46] → name ≠ [46, 46] →
      st.fs.lookup (st.cwd ++ [name]) = some .dir →
      _mkdir st name m orc = some st) := by
  constructor
  · intro st name m orc c fm fa ft hl
    unfold _mkdir
    split
    · rfl
    split
    · rfl
    split
    · rfl
    split
    · rfl
    rw [hl]
  · intro st name m orc h1 h2 h3 h4 hl
    unfold _mkdir
    rw [if_neg h1, if_neg h2, if_neg h3, if_neg h4, hl]

theorem mkdir_conflict_semantics_witness :
    _mkdir stWithFile (strBytes "a") 511 okOracle = none
    ∧ _mkdir stWithDir (strBytes "a") 511 okOracle = some stWithDir :=
  ⟨mkdir_conflict_semantics.1 stWithFile (strBytes "a") 511 okOracle
      [1] 420 5 5 (by decide),
   mkdir_conflict_semantics.2 stWithDir (strBytes "a") 511 okOracle
      (by decide) (by decide) (by decide) (by decide) (by decide)⟩

/-- C5: the four numeric fields are read with C `strtoul(…, NULL, 0)`
semantics — `0x` prefix selects hexadecimal, a leading `0` selects octal,
otherwise decimal, and scanning stops at the first invalid character — as
reflected in the decoder's stored fields (`mode` additionally narrowed by
the `mode_t` assignment) and on the claim's examples: `"0755"` parses to
493, `"0x2A"` to 42, with trailing non-numeric content ignored. -/
theorem numeric_field_parsing :
    (∀ (buf : List Nat) (r : fwpart) (L : Nat),
      decodeRecord buf = .ok (r, L) →
      r.size = strtoul0 (buf.drop sizeOff) ∧
      r.mode = strtoul0 (buf.drop modeOff) % 2 ^ 32 ∧
      r.time = strtoul0 (buf.drop timeOff) ∧
      r.rsvd = strtoul0 (buf.drop rsvdOff))
    ∧ strtoul0 (strBytes "0755") = 493
    ∧ strtoul0 (strBytes "0x2A") = 42
    ∧ strtoul0 (strBytes "493") = 493
    ∧ strtoul0 (strBytes "0755zzz") = 493
    ∧ strtoul0 (strBytes "42abc") = 42
    ∧ strtoul0 (strBytes "0x2Ag") = 42 := by
  refine ⟨?_, by decide, by decide, by decide, by decide, by decide,
    by decide⟩
  intro buf r L h
  obtain ⟨_, hs, hm, ht, hr, _⟩ := decodeRecord_ok h
  exact ⟨hs, hm, ht, hr⟩

theorem numeric_field_parsing_witness :
    demoRec.size = strtoul0 (demoBuf.drop sizeOff) ∧
    demoRec.mode = strtoul0 (demoBuf.drop modeOff) % 2 ^ 32 ∧
    demoRec.time = strtoul0 (demoBuf.drop timeOff) ∧
    demoRec.rsvd = strtoul0 (demoBuf.drop rsvdOff) :=
  numeric_field_parsing.1 demoBuf demoRec 258 (by decide)

/-- C6: a successfully materialized record leaves, at the record's
normalized path resolved under the extraction root, a regular file whose
content is exactly the record's payload (the declared `size` bytes),
whose permission bits equal the decoded `mode`, and whose access and
modification times both equal the decoded `time` (seconds-resolution
epoch value; the run uses the all-successful oracle, under which the
single `fwrite` delivers the full payload — the code cannot tell
otherwise, see C8). -/
theorem materialize_metadata (st st' : St) (buf : List Nat) (len L : Nat)
    (r : fwpart) (hdec : decodeRecord buf = .ok (r, L))
    (h : process_buf st buf okOracle = some (st', len)) :
    st'.fs.lookup
        (st.cwd ++ splitComponents (r.path.dropWhile (fun c => c = 47)))
      = some (.file r.payload r.mode r.time r.time) := by
  obtain ⟨r2, hdec2, hsave⟩ := process_buf_some h
  rw [hdec] at hdec2
  cases hdec2
  obtain ⟨hlook, _⟩ := save_buf_some hsave
  have hpay : r.payload = (buf.drop headerSize).take r.size :=
    (decodeRecord_ok hdec).2.2.2.2.2.2.2.2.1
  have hsz : r.size = strtoul0 (buf.drop sizeOff) :=
    (decodeRecord_ok hdec).2.1
  have hlt : r.payload.length < ulongMod := by
    have h1 : r.payload.length ≤ r.size := by
      rw [hpay]; exact List.length_take_le _ _
    have h2 : r.size < ulongMod := by rw [hsz]; exact strtoul0_lt _
    omega
  have hmin : min okOracle.written r.payload.length = r.payload.length :=
    Nat.min_eq_right (Nat.le_of_lt hlt)
  rw [hmin, List.take_length] at hlook
  exact hlook

theorem materialize_metadata_witness :
    demoSt.fs.lookup
        (stEmpty.cwd ++ splitComponents
          (demoRec.path.dropWhile (fun c => c = 47)))
      = some (.file demoRec.payload demoRec.mode demoRec.time demoRec.time) :=
  materialize_metadata stEmpty demoSt demoBuf 258 258 demoRec (by decide)
    (by decide)

/-- C7 (counterexample): the string fields are read as plain C strings,
not bounded by the field width.  On `ovPathBuf`, whose `path` field holds
sixty non-NUL bytes, the decoded path is 61 bytes: the sixty `a`s *plus*
byte 86 (`V`), the first byte of the following `vers` field — refuting
"never reads bytes of the following field even when the field contains no
NUL". -/
theorem path_field_overrun :
    decodeRecord ovPathBuf = .ok (ovPathRec, 256)
    ∧ ovPathRec.path = List.replicate 0x3C 97 ++ [86]
    ∧ 0x3C < ovPathRec.path.length := by decide

/-- C7 (amended): decoding of `name`, `path` and `vers` stops at the
first NUL byte, wherever that byte lies.  When the field contains a NUL
within its width, the decoded text is confined to the field and is
shorter than the width; when the field contains no NUL, decoding
continues past the field boundary into the following bytes. -/
theorem cstr_field_semantics :
    (∀ (buf : List Nat) (r : fwpart) (L : Nat),
      decodeRecord buf = .ok (r, L) →
      r.name = cstrAt buf 0 ∧ r.path = cstrAt buf pathOff ∧
      r.vers = cstrAt buf versOff)
    ∧ (∀ (buf : List Nat) (off w : Nat), 0 ∈ (buf.drop off).take w →
      cstrAt buf off = ((buf.drop off).take w).takeWhile (fun c => c ≠ 0) ∧
      (cstrAt buf off).length < w)
    ∧ (∀ (buf : List Nat) (off w : Nat), 0 ∉ (buf.drop off).take w →
      cstrAt buf off = (buf.drop off).take w ++ cstrAt buf (off + w)) := by
  refine ⟨?_, ?_, ?_⟩
  · intro buf r L h
    obtain ⟨_, _, _, _, _, hn, hp, hv, _⟩ := decodeRecord_ok h
    exact ⟨hn, hp, hv⟩
  · intro buf off w hmem
    have hsplit : (buf.drop off).take w ++ (buf.drop off).drop w
        = buf.drop off := List.take_append_drop w (buf.drop off)
    have hex : ∃ a ∈ (buf.drop off).take w,
        (fun c => decide (c ≠ 0)) a = false := ⟨0, hmem, by simp⟩
    constructor
    · unfold cstrAt
      conv_lhs => rw [← hsplit]
      exact takeWhile_append_neg _ _ _ hex
    · unfold cstrAt
      conv_lhs => rw [← hsplit]
      rw [takeWhile_append_neg _ _ _ hex]
      have h1 := takeWhile_length_lt (fun c => decide (c ≠ 0))
        ((buf.drop off).take w) hex
      have h2 := List.length_take_le w (buf.drop off)
      omega
  · intro buf off w hnmem
    have hall : ∀ a ∈ (buf.drop off).take w,
        (fun c => decide (c ≠ 0)) a = true := by
      intro a ha
      simp only [decide_eq_true_eq]
      intro hc
      subst hc
      exact hnmem ha
    unfold cstrAt
    conv_lhs => rw [← List.take_append_drop w (buf.drop off)]
    rw [takeWhile_append_pos _ _ _ hall, List.drop_drop, Nat.add_comm]

theorem cstr_field_semantics_witness :
    (demoRec.name = cstrAt demoBuf 0 ∧
      demoRec.path = cstrAt demoBuf pathOff ∧
      demoRec.vers = cstrAt demoBuf versOff)
    ∧ (cstrAt demoBuf 0
        = ((demoBuf.drop 0).take 0x74).takeWhile (fun c => c ≠ 0) ∧
      (cstrAt demoBuf 0).length < 0x74)
    ∧ cstrAt ovPathBuf pathOff
        = (ovPathBuf.drop pathOff).take 0x3C
            ++ cstrAt ovPathBuf (pathOff + 0x3C) :=
  ⟨cstr_field_semantics.1 demoBuf demoRec 258 (by decide),
   cstr_field_semantics.2.1 demoBuf 0 0x74 (by decide),
   cstr_field_semantics.2.2 ovPathBuf pathOff 0x3C (by decide)⟩

/-- C8 (counterexample): the payload write's result is silently
swallowed.  With an oracle under which `fwrite` delivers only 1 of the 3
payload bytes, `save_buf` still *succeeds*, leaving a truncated 1-byte
file — the source never checks `fwrite`'s return value, so a short write
does not abort the archive. -/
theorem short_write_swallowed :
    (save_buf stEmpty (strBytes "d/f") [7, 7, 7] 420 99
        ⟨true, true, 1⟩).map
      (fun s => s.fs.lookup [strBytes "d", strBytes "f"])
    = some (some (.file [7] 420 99 99)) := by decide

/-- C8 (amended): a failed `fopen` aborts fatally (whatever else
happened), a failed `mkdir` of a missing component aborts fatally, but
the payload write is unchecked: whether `save_buf` succeeds is completely
independent of how many bytes the write actually produced. -/
theorem fs_failure_semantics :
    (∀ (st : St) (p c : List Nat) (m t : Nat) (orc : Oracle),
      orc.openOk = false → save_buf st p c m t orc = none)
    ∧ (∀ (st : St) (name : Name) (m : Nat) (orc : Oracle),
      orc.mkdirOk = false → st.fs.lookup (st.cwd ++ [name]) = none →
      _mkdir st name m orc = none)
    ∧ (∀ (st : St) (p c : List Nat) (m t : Nat) (w w' : Nat),
      (save_buf st p c m t ⟨true, true, w⟩).isSome
        = (save_buf st p c m t ⟨true, true, w'⟩).isSome) := by
  refine ⟨?_, ?_, ?_⟩
  · intro st p c m t orc ho
    simp only [save_buf, ho, Bool.false_eq_true, if_false]
    cases mkdir_p_fn st (p.dropWhile (fun c => c = 47)) 0o777 orc with
    | none => rfl
    | some st1 => rfl
  · intro st name m orc hm hl
    unfold _mkdir
    split
    · rfl
    split
    · rfl
    split
    · rfl
    split
    · rfl
    rw [hl, hm]
    rfl
  · intro st p c m t w w'
    simp only [save_buf]
    rw [mkdir_p_fn_oracle st (p.dropWhile (fun c => c = 47)) 0o777
      ⟨true, true, w⟩ ⟨true, true, w'⟩ rfl]
    cases mkdir_p_fn st (p.dropWhile (fun c => c = 47)) 0o777
        ⟨true, true, w'⟩ with
    | none => rfl
    | some st1 =>
      by_cases hl : st1.fs.lookup
          (st1.cwd ++ splitComponents (p.dropWhile (fun c => c = 47)))
        = some Entry.dir
      · simp [hl]
      · simp [hl]

theorem fs_failure_semantics_witness :
    save_buf stEmpty (strBytes "d/f") [7, 7, 7] 420 99 ⟨true, false, 3⟩
      = none
    ∧ _mkdir stEmpty (strBytes "d") 511 ⟨false, true, 0⟩ = none
    ∧ (save_buf stEmpty (strBytes "d/f") [7, 7, 7] 420 99
        ⟨true, true, 1⟩).isSome
      = (save_buf stEmpty (strBytes "d/f") [7, 7, 7] 420 99
        ⟨true, true, 3⟩).isSome :=
  ⟨fs_failure_semantics.1 stEmpty (strBytes "d/f") [7, 7, 7] 420 99
      ⟨true, false, 3⟩ rfl,
   fs_failure_semantics.2.1 stEmpty (strBytes "d") 511 ⟨false, true, 0⟩
      rfl (by decide),
   fs_failure_semantics.2.2 stEmpty (strBytes "d/f") [7, 7, 7] 420 99 1 3⟩

/-- C9: `_mkdir_p` changes into each created/verified directory level to
resolve the next component (modelled by extending the working directory
for the recursive call) and, whenever it completes successfully, the
original working directory is restored (the saved-descriptor `fchdir`);
consequently `save_buf` leaves the working directory untouched, so every
record resolves against the same extraction root no matter how many
records were materialized before it. -/
theorem mkdir_p_restores_cwd :
    (∀ (st : St) (p : Name) (m : Nat) (orc : Oracle) (st' : St),
      _mkdir_p st p m orc = some st' → st'.cwd = st.cwd)
    ∧ (∀ (st : St) (p c : List Nat) (m t : Nat) (orc : Oracle) (st' : St),
      save_buf st p c m t orc = some st' → st'.cwd = st.cwd) :=
  ⟨fun st p m orc st' h => mkdirpF_cwd _ st p m orc st' h,
   fun _ _ _ _ _ _ _ h => (save_buf_some h).2⟩

/-- State after creating directories `a` and `a/b` from an empty root. -/
def stAB : St :=
  ⟨⟨[([strBytes "a", strBytes "b"], .dir), ([strBytes "a"], .dir)]⟩, []⟩

theorem mkdir_p_restores_cwd_witness : stAB.cwd = stEmpty.cwd :=
  mkdir_p_restores_cwd.1 stEmpty (strBytes "a/b") 511 okOracle stAB
    (by decide)

/-- C10: a record whose declared path, once its leading slashes are
stripped, contains no `/` at all can never be extracted: `dirname` of the
bare filename is `"."` and `_mkdir` rejects `"."` by assertion, so
`save_buf` aborts before the file is opened or written. -/
theorem bare_filename_aborts (st : St) (p c : List Nat) (m t : Nat)
    (orc : Oracle) (h : 47 ∉ p.dropWhile (fun x => x = 47)) :
    save_buf st p c m t orc = none := by
  have hd : dirname (p.dropWhile (fun x => x = 47)) = [46] :=
    dirname_no_slash _ h
  have hmk : mkdir_p_fn st (p.dropWhile (fun x => x = 47)) 0o777 orc
      = none := by
    unfold mkdir_p_fn _mkdir_p
    rw [hd]
    rfl
  simp only [save_buf, hmk, Option.none_bind]

theorem bare_filename_aborts_witness :
    save_buf stEmpty (strBytes "file.bin") [1] 420 99 okOracle = none :=
  bare_filename_aborts stEmpty (strBytes "file.bin") [1] 420 99 okOracle
    (by decide)

end Unwpreg
